import Mathlib

/-!
# pybase: `transform`, `scale_array`, `create_new_key`

A shallow embedding of `src/pybase/transform.cpp` / `transform.h`.

* `Double` models the C++ `double` (IEEE 754 binary64) and `Double.mul` its `*`
  in the default rounding mode (round to nearest, ties to even).
* `CppString` models `std::string` as a sequence of bytes.
* `NdArray` models what `scale_array` sees of a `py::array_t<double>` through
  `py::buffer_info`: the `shape` and `strides` vectors and the memory behind `ptr`.
  `NdArray.elem` is the element of the array at a flat index, found through the strides.
* `Dict` models `std::map<std::string, py::array_t<double>>` as its sequence of
  entries in iteration order.
-/

namespace pybase

/-! ## `double` -/

/-- The values of an IEEE 754 binary64 `double`. All NaNs are one value (sign and
payload of a NaN are not tracked). `finite sign expo frac` carries the biased
exponent field `expo` (0 for zeros and subnormals, 1..2046 for normals) and the
52-bit fraction field `frac`. -/
inductive Double where
  | nan : Double
  | inf (sign : Bool) : Double
  | finite (sign : Bool) (expo : Fin 2047) (frac : Fin (2 ^ 52)) : Double
  deriving DecidableEq

namespace Double

/-- Decoding of a 64-bit pattern (sign bit, 11 exponent bits, 52 fraction bits). -/
def ofBits (b : Nat) : Double :=
  let s := decide (b / 2 ^ 63 % 2 = 1)
  let e := b / 2 ^ 52 % 2048
  let f := b % 2 ^ 52
  if h : e < 2047 then finite s ⟨e, h⟩ ⟨f, Nat.mod_lt _ (by decide)⟩
  else if f = 0 then inf s else nan

/-- The integer significand: `frac` for zeros and subnormals, `2^52 + frac` for
normal numbers. -/
def sig (expo : Fin 2047) (frac : Fin (2 ^ 52)) : Nat :=
  if expo.val = 0 then frac.val else 2 ^ 52 + frac.val

/-- The exponent that scales the significand: the magnitude of `finite s e f` is
`sig e f * 2 ^ (scale e) / 2 ^ 1075`. -/
def scale (expo : Fin 2047) : Nat :=
  if expo.val = 0 then 1 else expo.val

/-- Number of binary digits of `m` (for `m < 2 ^ fuel`). -/
def bitLen : Nat → Nat → Nat
  | 0, _ => 0
  | fuel + 1, m => if m = 0 then 0 else bitLen fuel (m / 2) + 1

/-- The quotient `m / 2 ^ k` rounded to the nearest integer, ties to even. -/
def rneShift (m k : Nat) : Nat :=
  let q := m / 2 ^ k
  let r := m % 2 ^ k
  if 2 * r > 2 ^ k ∨ (2 * r = 2 ^ k ∧ q % 2 = 1) then q + 1 else q

/-- The `double` with the given sign whose exponent and fraction fields, read as one
number `expo * 2 ^ 52 + frac`, are `t`; infinity when `t` is beyond the largest finite
`double`. -/
def pack (sign : Bool) (t : Nat) : Double :=
  if h : t < 2047 * 2 ^ 52 then
    finite sign ⟨t / 2 ^ 52, by omega⟩ ⟨t % 2 ^ 52, Nat.mod_lt _ (by decide)⟩
  else inf sign

/-- The `double` nearest (ties to even) to the exact magnitude
`m * 2 ^ x / 2 ^ 2150`, with the given sign; overflow gives infinity. -/
def roundPack (sign : Bool) (m x : Nat) : Double :=
  if m = 0 then finite sign 0 0 else
    let n := bitLen 128 m - 1
    let eb : Nat := if n + x ≥ 1128 then n + x - 1127 else 1
    let r := if x ≥ 1075 + eb then m * 2 ^ (x - (1075 + eb)) else rneShift m (1075 + eb - x)
    pack sign ((eb - 1) * 2 ^ 52 + r)

/-- The C++ `a * b` on `double`: the exact product rounded to nearest, ties to
even; `0 * inf` is NaN; NaN propagates. -/
def mul : Double → Double → Double
  | nan, _ => nan
  | _, nan => nan
  | inf s, inf t => inf (xor s t)
  | inf s, finite t e f => if e.val = 0 ∧ f.val = 0 then nan else inf (xor s t)
  | finite s e f, inf t => if e.val = 0 ∧ f.val = 0 then nan else inf (xor s t)
  | finite s e f, finite t e' f' =>
      roundPack (xor s t) (sig e f * sig e' f') (scale e + scale e')

/-- Positive zero. -/
def zero : Double := finite false 0 0

/-- The literal `1.0`. -/
def one : Double := ofBits 0x3FF0000000000000

/-- The literal `0.3` (`0x1.3333333333333p-2`). -/
def c0_3 : Double := ofBits 0x3FD3333333333333

end Double

/-! ## `std::string` -/

/-- A `std::string`: a sequence of bytes. -/
abbrev CppString := List (Fin 256)

/-- The bytes of a string literal (UTF-8, as in a C++ narrow string literal). -/
def str (s : String) : CppString :=
  s.data.flatMap fun c =>
    (String.utf8EncodeChar c).map fun b => ⟨b.toNat % 256, Nat.mod_lt _ (by decide)⟩

/-- The `operator<` of `std::string`: lexicographic comparison of the bytes as
unsigned values, a proper prefix being smaller. -/
def CppString.lt : CppString → CppString → Bool
  | [], [] => false
  | [], _ :: _ => true
  | _ :: _, [] => false
  | a :: as, b :: bs => if a < b then true else if b < a then false else CppString.lt as bs

/-- The default value of the `suffix` parameter in `transform.h`. -/
def default_suffix : CppString := str "_new"

/-- The function `create_new_key(key, suffix)`: `return key + suffix;`. -/
def create_new_key (key suffix : CppString) : CppString :=
  key ++ suffix

/-- The call `create_new_key(key)` with the defaulted `suffix`. -/
def create_new_key_default (key : CppString) : CppString :=
  create_new_key key default_suffix

/-! ## `py::array_t<double>` -/

/-- What can go wrong in `scale_array`. -/
inductive Error where
  /-- The exception `std::runtime_error("Zero-dimensional arrays are not supported")`. -/
  | zeroDim : Error
  /-- An access outside a buffer. The source has undefined behaviour there; the
  model stops with this marker. -/
  | outOfBounds : Error
  deriving DecidableEq

/-- An array as `py::buffer_info` describes it: the `shape` vector (`ndim` is its
length), the `strides` vector (in bytes, one stride per dimension) and `data`, the
`double`s that lie in memory from `ptr` on, in address order (`data[i]` is `ptr[i]`).
The parameter type `py::array_t<double>` carries no `c_style` flag, so a view whose
strides are not those of row-major order (a transposed array, a slice with a step)
reaches `scale_array` as it is. Memory before `ptr` is not part of the model: the source
never reads there, and an element whose offset is negative (a reversed view) is not among
`data`. -/
structure NdArray where
  shape : List Nat
  strides : List Int
  data : List Double
  deriving DecidableEq

/-- The strides `c_strides(shape, sizeof(double))` that pybind11 gives a newly
constructed array: row-major order, the last dimension varying fastest. -/
def cStrides : List Nat → List Int
  | [] => []
  | _ :: ds => 8 * (ds.prod : Int) :: cStrides ds

/-- The multi-index of the flat index `i` of an array of the given shape, in row-major
order (the order of numpy's `flat` and `ravel`). -/
def unravel : List Nat → Nat → List Nat
  | [], _ => []
  | _ :: ds, i => i / ds.prod :: unravel ds (i % ds.prod)

/-- The byte offset from `ptr` of the element at a multi-index: the sum of
`index * stride` over the dimensions. -/
def byteOffset : List Int → List Nat → Int
  | s :: ss, j :: js => s * (j : Int) + byteOffset ss js
  | _, _ => 0

namespace NdArray

/-- The field `buf.ndim`. -/
def ndim (a : NdArray) : Nat := a.shape.length

/-- The element of the array at flat index `i` (row-major order over its shape): the
`double` at the byte offset its strides give for the multi-index of `i`. It is `none`
when `i` is not a flat index of the shape or the offset is not the place of one of the
`double`s stored from `ptr` on. -/
def elem (a : NdArray) (i : Nat) : Option Double :=
  let off := byteOffset a.strides (unravel a.shape i)
  if i < a.shape.prod ∧ 0 ≤ off ∧ off % 8 = 0 then a.data[(off / 8).toNat]? else none

/-- The array is laid out in row-major order without gaps: the element at flat index
`i` is at byte offset `8 * i`, that is, it is `ptr[i]`. -/
abbrev CContiguous (a : NdArray) : Prop :=
  ∀ i, i < a.shape.prod → byteOffset a.strides (unravel a.shape i) = 8 * (i : Int)

/-- The memory from `ptr` on holds exactly as many `double`s as the shape has flat
indices, and the element count fits a `size_t`. This says nothing about the strides. -/
abbrev WellFormed (a : NdArray) : Prop :=
  a.data.length = a.shape.prod ∧ a.shape.prod < 2 ^ 64

/-- The constructor `py::array_t<double> result(buf.shape)`: a new array of the given
shape in row-major order; its contents are unspecified until written (here: zeros). -/
def alloc (shape : List Nat) : NdArray :=
  { shape := shape, strides := cStrides shape,
    data := List.replicate shape.prod Double.zero }

end NdArray

/-- The loop `for (i = 0; i < buf.ndim; ++i) total_size *= buf.shape[i];` on a
64-bit `size_t`, started from `total_size = 1`. -/
def totalSize (shape : List Nat) : Nat :=
  shape.foldl (fun total_size d => total_size * d % 2 ^ 64) 1

/-- The loop `for (i = 0; i < total_size; ++i) output_ptr[i] = input_ptr[i] * factor;`.
The first numeric argument is the number of iterations left (`total_size - i`), the
second is `i`, the list is the current content of the output buffer. -/
def scaleLoop (input : List Double) (factor : Double) :
    Nat → Nat → List Double → Except Error (List Double)
  | 0, _, output => .ok output
  | n + 1, i, output =>
    match input[i]? with
    | none => .error .outOfBounds
    | some x =>
      if i < output.length then
        scaleLoop input factor n (i + 1) (output.set i (Double.mul x factor))
      else .error .outOfBounds

/-- The function `scale_array(arr, factor)`. -/
def scale_array (arr : NdArray) (factor : Double) : Except Error NdArray :=
  if arr.ndim = 0 then .error .zeroDim
  else
    let result := NdArray.alloc arr.shape
    let total_size := totalSize arr.shape
    match scaleLoop arr.data factor total_size 0 result.data with
    | .error e => .error e
    | .ok output => .ok { result with data := output }

/-! ## `scale_array` over an explicit store of array objects -/

/-- The array objects that exist, addressed by their position: a `py::array_t<double>`
is a handle (a position) into this store. -/
abbrev Heap := List NdArray

namespace Heap

/-- The read `p[i]` in the buffer of the array at `p`. -/
def read (h : Heap) (p i : Nat) : Option Double :=
  match h[p]? with
  | none => none
  | some b => b.data[i]?

/-- The write `p[i] = v` in the buffer of the array at `p`; `none` outside the buffer. -/
def write (h : Heap) (p i : Nat) (v : Double) : Option Heap :=
  match h[p]? with
  | none => none
  | some b => if i < b.data.length then some (h.set p { b with data := b.data.set i v }) else none

/-- The constructor `py::array_t<double> result(shape)`: a new array object; returns the
store and the handle of the new object. -/
def alloc (h : Heap) (shape : List Nat) : Heap × Nat :=
  (h ++ [NdArray.alloc shape], h.length)

end Heap

/-- The scaling loop of `scale_array` on the store: reads through `input_ptr`,
writes through `output_ptr`. Returns the store as it is when the loop ends or stops. -/
def scaleLoopMem (input_ptr output_ptr : Nat) (factor : Double) :
    Nat → Nat → Heap → Heap × Option Error
  | 0, _, h => (h, none)
  | n + 1, i, h =>
    match h.read input_ptr i with
    | none => (h, some .outOfBounds)
    | some x =>
      match h.write output_ptr i (Double.mul x factor) with
      | none => (h, some .outOfBounds)
      | some h' => scaleLoopMem input_ptr output_ptr factor n (i + 1) h'

/-- The function `scale_array(arr, factor)` on the store, `arr` being the handle of the
input array: returns the final store and either the error or the handle of the result
array. A handle that names no object is outside the source's typed calls; the model
stops with the out-of-bounds marker. -/
def scale_array_mem (h : Heap) (arr : Nat) (factor : Double) : Heap × Except Error Nat :=
  match h[arr]? with
  | none => (h, .error .outOfBounds)
  | some buf =>
    if buf.ndim = 0 then (h, .error .zeroDim)
    else
      let (h1, result) := h.alloc buf.shape
      let total_size := totalSize buf.shape
      match scaleLoopMem arr result factor total_size 0 h1 with
      | (h2, some e) => (h2, .error e)
      | (h2, none) => (h2, .ok result)

/-! ## `std::map<std::string, py::array_t<double>>` -/

/-- A `std::map<std::string, py::array_t<double>>` as the sequence of its entries in
iteration order (ascending keys). -/
abbrev Dict := List (CppString × NdArray)

namespace Dict

/-- The invariant of `std::map`: keys strictly ascending (hence unique). -/
abbrev Ordered (m : Dict) : Prop :=
  m.Pairwise fun a b => CppString.lt a.1 b.1 = true

/-- The keys in iteration order. -/
def keys (m : Dict) : List CppString := m.map Prod.fst

/-- The lookup `m.find(k)`: the value stored under `k`, if any. -/
def find : Dict → CppString → Option NdArray
  | [], _ => none
  | (k0, v0) :: rest, k => if k0 = k then some v0 else find rest k

/-- The statement `m[k] = v`: the value of the entry with a key equivalent to `k` is
replaced, otherwise a new entry is inserted at its place in the key order. -/
def assign : Dict → CppString → NdArray → Dict
  | [], k, v => [(k, v)]
  | (k0, v0) :: rest, k, v =>
    if CppString.lt k0 k then (k0, v0) :: assign rest k v
    else if CppString.lt k k0 then (k, v) :: (k0, v0) :: rest
    else (k0, v) :: rest

end Dict

/-- The loop of `transform` over the entries of `input_dict` that are still to be
visited, with the current `output_dict`. An exception of `scale_array` leaves the
function. -/
def transformLoop : List (CppString × NdArray) → Dict → Except Error Dict
  | [], output_dict => .ok output_dict
  | (key, arr) :: rest, output_dict =>
    let new_key := create_new_key_default key
    match scale_array arr Double.c0_3 with
    | .error e => .error e
    | .ok scaled_arr => transformLoop rest (output_dict.assign new_key scaled_arr)

deriving instance DecidableEq for Except

/-- The function `transform(input_dict)`. -/
def transform (input_dict : Dict) : Except Error Dict :=
  transformLoop input_dict []

/-! ## The scaling loop with its accesses recorded -/

/-- One access of the scaling loop to a buffer. -/
inductive Access where
  /-- The read `input_ptr[i]`. -/
  | read (i : Nat) : Access
  /-- The write `output_ptr[i] = ...`. -/
  | write (i : Nat) : Access
  deriving DecidableEq

/-- The indices read from the input, in the order of the reads. -/
def reads : List Access → List Nat
  | [] => []
  | .read i :: t => i :: reads t
  | .write _ :: t => reads t

/-- The indices written to the result, in the order of the writes. -/
def writes : List Access → List Nat
  | [] => []
  | .read _ :: t => writes t
  | .write i :: t => i :: writes t

/-- The loop `for (i = 0; i < total_size; ++i) output_ptr[i] = input_ptr[i] * factor;`
as in `scaleLoop`, returning also every access it makes, in order: the read of
`input_ptr[i]`, then the write of `output_ptr[i]`, an access outside its buffer
included (it is the last one). -/
def scaleLoopTrace (input : List Double) (factor : Double) :
    Nat → Nat → List Double → List Access × Except Error (List Double)
  | 0, _, output => ([], .ok output)
  | n + 1, i, output =>
    match input[i]? with
    | none => ([.read i], .error .outOfBounds)
    | some x =>
      if i < output.length then
        let next := scaleLoopTrace input factor n (i + 1) (output.set i (Double.mul x factor))
        (.read i :: .write i :: next.1, next.2)
      else ([.read i, .write i], .error .outOfBounds)

/-- The function `scale_array(arr, factor)` as in `scale_array`, returning also the
accesses of its scaling loop. -/
def scale_array_trace (arr : NdArray) (factor : Double) :
    List Access × Except Error NdArray :=
  if arr.ndim = 0 then ([], .error .zeroDim)
  else
    let result := NdArray.alloc arr.shape
    let total_size := totalSize arr.shape
    match scaleLoopTrace arr.data factor total_size 0 result.data with
    | (t, .error e) => (t, .error e)
    | (t, .ok output) => (t, .ok { result with data := output })

/-! ## Literals and arrays used in examples -/

namespace Double

/-- The literal `2.0`. -/
def two : Double := ofBits 0x4000000000000000

/-- The literal `3.0`. -/
def three : Double := ofBits 0x4008000000000000

/-- The literal `10.0`. -/
def ten : Double := ofBits 0x4024000000000000

/-- The literal `0.1` (`0x1.999999999999ap-4`). -/
def c0_1 : Double := ofBits 0x3FB999999999999A

/-- The literal `0.6` (`0x1.3333333333333p-1`). -/
def c0_6 : Double := ofBits 0x3FE3333333333333

/-- The literal `0.9` (`0x1.ccccccccccccdp-1`). -/
def c0_9 : Double := ofBits 0x3FECCCCCCCCCCCCD

/-- The `double` just below `0.9` (`0x1.cccccccccccccp-1`, printed
`0.8999999999999999`). -/
def c0_9_pred : Double := ofBits 0x3FECCCCCCCCCCCCC

end Double

/-- The collection `{"a": [1.0, 2.0, 3.0]}`. -/
def exampleInput : Dict :=
  [(str "a", { shape := [3], strides := [8], data := [Double.one, Double.two, Double.three] })]

/-- The one-dimensional array `[3.0]`. -/
def exampleThree : NdArray := { shape := [1], strides := [8], data := [Double.three] }

/-- A 2 x 2 array holding `1.0`, NaN, negative infinity and the smallest subnormal. -/
def exampleMixed : NdArray :=
  { shape := [2, 2], strides := [16, 8],
    data := [Double.one, Double.nan, Double.inf true, Double.ofBits 1] }

/-- A zero-dimensional array holding `3.0`. -/
def exampleScalar : NdArray := { shape := [], strides := [], data := [Double.three] }

/-- The collection `{"a": [3.0], "b": <zero-dimensional 3.0>, "c": [3.0]}`. -/
def exampleWithScalar : Dict :=
  [(str "a", exampleThree), (str "b", exampleScalar), (str "c", exampleThree)]

/-- The collection `{"a": [3.0], "a!": <the 2 x 2 array>}`. -/
def exampleTwo : Dict :=
  [(str "a", exampleThree), (str "a!", exampleMixed)]

/-- An empty array of shape 2 x 0 x 3. -/
def exampleEmpty : NdArray := { shape := [2, 0, 3], strides := [0, 24, 8], data := [] }

/-- The literal `4.0`. -/
def Double.four : Double := Double.ofBits 0x4010000000000000

/-- The literal `5.0`. -/
def Double.five : Double := Double.ofBits 0x4014000000000000

/-- The literal `6.0`. -/
def Double.six : Double := Double.ofBits 0x4018000000000000

/-- The literal `8.0`. -/
def Double.eight : Double := Double.ofBits 0x4020000000000000

/-- The transposed view `numpy.arange(6.0).reshape(2, 3).T`: shape 3 x 2 with strides
of 8 and 24 bytes over the memory `0.0, 1.0, 2.0, 3.0, 4.0, 5.0`; as an array it is
`[[0.0, 3.0], [1.0, 4.0], [2.0, 5.0]]`, its elements in flat order being
`0.0, 3.0, 1.0, 4.0, 2.0, 5.0`. -/
def exampleTransposed : NdArray :=
  { shape := [3, 2], strides := [8, 24],
    data := [Double.zero, Double.one, Double.two, Double.three, Double.four, Double.five] }

/-- A store with two array objects. -/
def exampleHeap : Heap := [exampleMixed, exampleThree]

/-! ## Facts about the loops of `scale_array` -/

theorem totalSize_foldl (shape : List Nat) (acc : Nat) (hacc : acc < 2 ^ 64) :
    shape.foldl (fun total_size d => total_size * d % 2 ^ 64) acc
      = acc * shape.prod % 2 ^ 64 := by
  induction shape generalizing acc with
  | nil => simp only [List.foldl_nil, List.prod_nil, Nat.mul_one, Nat.mod_eq_of_lt hacc]
  | cons d ds ih =>
    rw [List.foldl_cons, ih _ (Nat.mod_lt _ (by decide)), List.prod_cons, Nat.mod_mul_mod,
      Nat.mul_assoc]

theorem totalSize_eq (shape : List Nat) : totalSize shape = shape.prod % 2 ^ 64 := by
  unfold totalSize
  rw [totalSize_foldl shape 1 (by decide), Nat.one_mul]

theorem totalSize_of_lt (shape : List Nat) (h : shape.prod < 2 ^ 64) :
    totalSize shape = shape.prod := by
  rw [totalSize_eq, Nat.mod_eq_of_lt h]

theorem scaleLoop_ok (input : List Double) (factor : Double) (n i : Nat) (output : List Double)
    (hin : i + n ≤ input.length) (hout : i + n ≤ output.length) :
    ∃ out, scaleLoop input factor n i output = .ok out ∧ out.length = output.length ∧
      (∀ j, j < i → out[j]? = output[j]?) ∧
      (∀ j, i ≤ j → j < i + n → out[j]? = (input[j]?).map fun x => Double.mul x factor) ∧
      (∀ j, i + n ≤ j → out[j]? = output[j]?) := by
  induction n generalizing i output with
  | zero => exact ⟨output, rfl, rfl, fun _ _ => rfl, fun j h1 h2 => by omega, fun _ _ => rfl⟩
  | succ n ih =>
    have hi : i < input.length := by omega
    have ho : i < output.length := by omega
    obtain ⟨out, hrun, hlen, hlow, hmid, hhigh⟩ :=
      ih (i + 1) (output.set i (Double.mul input[i] factor))
        (by omega) (by rw [List.length_set]; omega)
    refine ⟨out, ?_, ?_, ?_, ?_, ?_⟩
    · simp only [scaleLoop, List.getElem?_eq_getElem hi, ho, if_true]
      exact hrun
    · rw [hlen, List.length_set]
    · intro j hj
      rw [hlow j (by omega), List.getElem?_set_ne (by omega)]
    · intro j h1 h2
      by_cases hji : j = i
      · subst hji
        rw [hlow j (by omega), List.getElem?_set_self ho, List.getElem?_eq_getElem hi]
        rfl
      · exact hmid j (by omega) (by omega)
    · intro j hj
      rw [hhigh j (by omega), List.getElem?_set_ne (by omega)]

/-- On a well-formed array with at least one dimension `scale_array` returns the array
of the same shape whose buffer is the input buffer multiplied element by element. -/
theorem scale_array_eq_map (arr : NdArray) (factor : Double)
    (hwf : arr.WellFormed) (hdim : 1 ≤ arr.ndim) :
    scale_array arr factor
      = .ok { shape := arr.shape, strides := cStrides arr.shape,
              data := arr.data.map fun x => Double.mul x factor } := by
  obtain ⟨hlen, hbound⟩ := hwf
  obtain ⟨out, hrun, hlen', -, hmid, -⟩ :=
    scaleLoop_ok arr.data factor arr.shape.prod 0
      (List.replicate arr.shape.prod Double.zero) (by omega) (by simp)
  have hout : out = arr.data.map fun x => Double.mul x factor := by
    apply List.ext_getElem?
    intro j
    by_cases hj : j < arr.shape.prod
    · rw [hmid j (Nat.zero_le _) (by omega), List.getElem?_map]
    · rw [List.getElem?_eq_none (by simp at hlen'; omega),
        List.getElem?_eq_none (by simp; omega)]
  have hnd : ¬ arr.ndim = 0 := by omega
  simp only [scale_array, hnd, if_false, NdArray.alloc, totalSize_of_lt _ hbound, hrun, hout]

theorem scale_array_zeroDim (arr : NdArray) (factor : Double) (hdim : arr.ndim = 0) :
    scale_array arr factor = .error .zeroDim := by
  simp [scale_array, hdim]

theorem scale_array_ne_zeroDim (arr : NdArray) (factor : Double) (hdim : arr.ndim ≠ 0) :
    scale_array arr factor ≠ .error .zeroDim := by
  unfold scale_array
  simp only [hdim, if_false]
  have key : ∀ n i output,
      scaleLoop arr.data factor n i output ≠ .error .zeroDim := by
    intro n
    induction n with
    | zero => intro i output h; simp [scaleLoop] at h
    | succ n ih =>
      intro i output h
      unfold scaleLoop at h
      split at h
      · simp at h
      · split at h
        · exact ih _ _ h
        · simp at h
  intro h
  split at h
  · next e he =>
    injection h with h
    subst h
    exact key _ _ _ he
  · simp at h

/-! ## Facts about strides and elements -/

theorem byteOffset_cStrides (shape : List Nat) (i : Nat) (hi : i < shape.prod) :
    byteOffset (cStrides shape) (unravel shape i) = 8 * (i : Int) := by
  induction shape generalizing i with
  | nil =>
    simp only [List.prod_nil, Nat.lt_one_iff] at hi
    subst hi
    rfl
  | cons d ds ih =>
    rw [List.prod_cons] at hi
    have hpos : 0 < ds.prod := by
      rcases Nat.eq_zero_or_pos ds.prod with h | h
      · rw [h, Nat.mul_zero] at hi
        exact absurd hi (Nat.not_lt_zero _)
      · exact h
    have hrec := ih (i % ds.prod) (Nat.mod_lt _ hpos)
    simp only [cStrides, unravel, byteOffset, hrec]
    have hsplit : (ds.prod : Int) * ((i / ds.prod : Nat) : Int) + ((i % ds.prod : Nat) : Int)
        = (i : Int) := by
      exact_mod_cast Nat.div_add_mod i ds.prod
    linarith

/-- An array with the strides of `cStrides` is in row-major order without gaps. -/
theorem cContiguous_cStrides (shape : List Nat) (data : List Double) :
    NdArray.CContiguous { shape := shape, strides := cStrides shape, data := data } :=
  fun i hi => byteOffset_cStrides shape i hi

/-- In an array in row-major order without gaps the element at flat index `i` is
`ptr[i]`. -/
theorem elem_of_cContiguous (a : NdArray) (hc : a.CContiguous) (i : Nat)
    (hi : i < a.shape.prod) : a.elem i = a.data[i]? := by
  have hoff := hc i hi
  unfold NdArray.elem
  simp only [hoff]
  have h1 : (0 : Int) ≤ 8 * (i : Int) := by omega
  have h2 : 8 * (i : Int) % 8 = 0 := by omega
  have h3 : (8 * (i : Int) / 8).toNat = i := by omega
  rw [if_pos ⟨hi, h1, h2⟩, h3]

/-- On a well-formed array in row-major order with at least one dimension
`scale_array` ends normally with an array of the same shape, in row-major order, whose
element at every flat index `i` is the element of the input at `i` times the factor. -/
theorem scale_array_cContiguous (A : NdArray) (f : Double)
    (hwf : A.WellFormed) (hc : A.CContiguous) (hdim : 1 ≤ A.ndim) :
    ∃ r, scale_array A f = .ok r ∧ r.shape = A.shape ∧ r.WellFormed ∧ r.CContiguous ∧
      ∀ i, i < A.shape.prod →
        ∃ a, A.elem i = some a ∧ r.elem i = some (Double.mul a f) := by
  refine ⟨_, scale_array_eq_map A f hwf hdim, rfl, ?_, cContiguous_cStrides _ _, ?_⟩
  · simpa [NdArray.WellFormed] using hwf
  · intro i hi
    have hlt : i < A.data.length := by rw [hwf.1]; exact hi
    refine ⟨A.data[i], ?_, ?_⟩
    · rw [elem_of_cContiguous A hc i hi, List.getElem?_eq_getElem hlt]
    · rw [elem_of_cContiguous _ (cContiguous_cStrides _ _) i hi]
      simp [List.getElem?_map, List.getElem?_eq_getElem hlt]

/-! ## Facts about `Double.mul` -/

namespace Double

theorem bitLen_le (fuel m k : Nat) (h : m < 2 ^ k) : bitLen fuel m ≤ k := by
  induction fuel generalizing m k with
  | zero => simp [bitLen]
  | succ fuel ih =>
    unfold bitLen
    split
    · omega
    · next hm =>
      cases k with
      | zero => simp at h; exact absurd h hm
      | succ k =>
        have : m / 2 < 2 ^ k := by
          rw [Nat.div_lt_iff_lt_mul (by decide)]
          rw [Nat.pow_succ] at h
          exact h
        have := ih (m / 2) k this
        omega

theorem bitLen_ge (fuel m k : Nat) (hlo : 2 ^ k ≤ m) (hhi : m < 2 ^ fuel) :
    k + 1 ≤ bitLen fuel m := by
  induction fuel generalizing m k with
  | zero =>
    have : 0 < 2 ^ k := Nat.pow_pos (by decide)
    simp at hhi
    omega
  | succ fuel ih =>
    have hpos : 0 < 2 ^ k := Nat.pow_pos (by decide)
    unfold bitLen
    split
    · omega
    · cases k with
      | zero => omega
      | succ k =>
        rw [Nat.pow_succ] at hlo hhi
        have h1 : 2 ^ k ≤ m / 2 := by
          rw [Nat.le_div_iff_mul_le (by decide)]
          exact hlo
        have h2 : m / 2 < 2 ^ fuel := by
          rw [Nat.div_lt_iff_lt_mul (by decide)]
          exact hhi
        have := ih (m / 2) k h1 h2
        omega

theorem one_eq : one = finite false ⟨1023, by decide⟩ ⟨0, by decide⟩ := by decide

theorem rneShift_mul (a k : Nat) : rneShift (a * 2 ^ k) k = a := by
  have hpos : 0 < 2 ^ k := Nat.pow_pos (by decide)
  unfold rneShift
  simp only [Nat.mul_mod_left, Nat.mul_div_cancel _ hpos]
  rw [if_neg]
  omega

theorem pack_fields (s : Bool) (e : Fin 2047) (f : Fin (2 ^ 52)) (t : Nat)
    (ht : t = e.val * 2 ^ 52 + f.val) : pack s t = finite s e f := by
  obtain ⟨e, he⟩ := e
  obtain ⟨f, hf⟩ := f
  subst ht
  have hlt : e * 2 ^ 52 + f < 2047 * 2 ^ 52 := by omega
  unfold pack
  rw [dif_pos hlt]
  congr 1
  · apply Fin.ext; show (e * 2 ^ 52 + f) / 2 ^ 52 = e; omega
  · apply Fin.ext; show (e * 2 ^ 52 + f) % 2 ^ 52 = f; omega

theorem roundPack_mul_one (s : Bool) (e : Fin 2047) (f : Fin (2 ^ 52)) :
    roundPack s (sig e f * 2 ^ 52) (scale e + 1023) = finite s e f := by
  by_cases hm : sig e f * 2 ^ 52 = 0
  · have he0 : e.val = 0 := by
      unfold sig at hm; split at hm <;> omega
    have hf0 : f.val = 0 := by
      unfold sig at hm; rw [if_pos he0] at hm; omega
    have he : e = 0 := Fin.ext he0
    have hf : f = 0 := Fin.ext hf0
    unfold roundPack
    rw [if_pos hm, he, hf]
  · unfold roundPack
    rw [if_neg hm]
    apply pack_fields
    by_cases he0 : e.val = 0
    · have hsig : sig e f = f.val := by unfold sig; rw [if_pos he0]
      have hsc : scale e = 1 := by unfold scale; rw [if_pos he0]
      have hf := f.isLt
      have hlen : bitLen 128 (sig e f * 2 ^ 52) ≤ 104 := bitLen_le _ _ _ (by rw [hsig]; omega)
      rw [hsc]
      rw [if_neg (by omega), if_neg (by omega)]
      have : 1075 + 1 - (1 + 1023) = 52 := by omega
      rw [this, rneShift_mul, hsig, he0]
    · have hsig : sig e f = 2 ^ 52 + f.val := by unfold sig; rw [if_neg he0]
      have hsc : scale e = e.val := by unfold scale; rw [if_neg he0]
      have hf := f.isLt
      have he := e.isLt
      have hle : bitLen 128 (sig e f * 2 ^ 52) ≤ 105 := bitLen_le _ _ _ (by rw [hsig]; omega)
      have hge : 104 + 1 ≤ bitLen 128 (sig e f * 2 ^ 52) :=
        bitLen_ge _ _ _ (by rw [hsig]; omega) (by rw [hsig]; omega)
      have hlen : bitLen 128 (sig e f * 2 ^ 52) = 105 := by omega
      rw [hsc, hlen]
      rw [if_pos (by omega), if_neg (by omega)]
      have : 1075 + (105 - 1 + (e.val + 1023) - 1127) - (e.val + 1023) = 52 := by omega
      rw [this, rneShift_mul, hsig]
      omega

/-- Multiplying by `1.0` returns the operand, for every `double`. -/
theorem mul_one (x : Double) : mul x one = x := by
  rw [one_eq]
  cases x with
  | nan => rfl
  | inf s => simp [mul]
  | finite s e f =>
    have h := roundPack_mul_one s e f
    simp only [mul, Bool.xor_false]
    have hs : sig ⟨1023, by decide⟩ ⟨0, by decide⟩ = 2 ^ 52 := by decide
    have hc : scale ⟨1023, by decide⟩ = 1023 := by decide
    rw [hs, hc]
    exact h

end Double

/-! ### Products of the literals used in the examples -/

namespace Double

set_option maxRecDepth 8000 in
/-- In `double` arithmetic `1.0 * 0.3` is `0.3` and `2.0 * 0.3` is `0.6`, but
`3.0 * 0.3` is the `double` just below `0.9`. -/
theorem mul_c0_3_examples :
    mul one c0_3 = c0_3 ∧ mul two c0_3 = c0_6 ∧ mul three c0_3 = c0_9_pred ∧
      c0_9_pred ≠ c0_9 := by
  decide

set_option maxRecDepth 8000 in
/-- In `double` arithmetic `0.1 * 10.0` is `1.0`, while `(3.0 * 0.1) * 10.0` is the
`double` just above `3.0`. -/
theorem mul_not_assoc_example :
    mul c0_1 ten = one ∧ mul three (mul c0_1 ten) = three ∧
      mul (mul three c0_1) ten = ofBits 0x4008000000000001 := by
  decide

set_option maxRecDepth 8000 in
/-- Special operands: zero times infinity is NaN, the largest finite `double` times `2.0`
overflows to infinity, and the smallest subnormal times `0.3` rounds to zero. -/
theorem mul_special_examples :
    mul zero (inf false) = nan ∧ mul (ofBits 0x7FEFFFFFFFFFFFFF) two = inf false ∧
      mul (ofBits 1) c0_3 = zero ∧ mul (inf true) c0_3 = inf true := by
  decide

end Double

/-! ## Facts about keys and `Dict` -/

theorem CppString.lt_irrefl (a : CppString) : CppString.lt a a = false := by
  induction a with
  | nil => rfl
  | cons x xs ih => simp [CppString.lt, ih]

theorem CppString.eq_of_not_lt (a b : CppString)
    (hab : CppString.lt a b = false) (hba : CppString.lt b a = false) : a = b := by
  induction a generalizing b with
  | nil =>
    cases b with
    | nil => rfl
    | cons y ys => simp [CppString.lt] at hab
  | cons x xs ih =>
    cases b with
    | nil => simp [CppString.lt] at hba
    | cons y ys =>
      simp only [CppString.lt] at hab hba
      by_cases hxy : x < y
      · simp [hxy] at hab
      · by_cases hyx : y < x
        · simp [hyx] at hba
        · simp only [hxy, hyx, if_false] at hab hba
          have hx : x = y := le_antisymm (not_lt.mp hyx) (not_lt.mp hxy)
          rw [hx, ih ys hab hba]

theorem create_new_key_default_injective (k1 k2 : CppString)
    (h : create_new_key_default k1 = create_new_key_default k2) : k1 = k2 :=
  List.append_cancel_right h

namespace Dict

theorem keys_nodup_of_ordered (m : Dict) (h : m.Ordered) : (keys m).Nodup := by
  unfold keys
  unfold List.Nodup
  rw [List.pairwise_map]
  refine List.Pairwise.imp ?_ h
  intro a b hlt heq
  rw [heq, CppString.lt_irrefl] at hlt
  exact Bool.noConfusion hlt

theorem find_assign (m : Dict) (k : CppString) (v : NdArray) (k' : CppString) :
    find (assign m k v) k' = if k = k' then some v else find m k' := by
  induction m with
  | nil => simp [assign, find]
  | cons e rest ih =>
    obtain ⟨k0, v0⟩ := e
    unfold assign
    by_cases h1 : CppString.lt k0 k = true
    · rw [if_pos h1]
      simp only [find, ih]
      by_cases h0 : k0 = k'
      · have hne : ¬ k = k' := by
          intro hk
          rw [h0, hk, CppString.lt_irrefl] at h1
          exact Bool.noConfusion h1
        simp [h0, hne]
      · simp [h0]
    · rw [if_neg h1]
      by_cases h2 : CppString.lt k k0 = true
      · rw [if_pos h2]
        simp only [find]
      · rw [if_neg h2]
        have hk : k = k0 :=
          CppString.eq_of_not_lt k k0 (by simpa using h2) (by simpa using h1)
        subst hk
        simp only [find]
        by_cases hkk : k = k' <;> simp [hkk]

theorem mem_keys_assign (m : Dict) (k : CppString) (v : NdArray) (k' : CppString) :
    k' ∈ keys (assign m k v) ↔ k' = k ∨ k' ∈ keys m := by
  induction m with
  | nil => simp [assign, keys]
  | cons e rest ih =>
    obtain ⟨k0, v0⟩ := e
    unfold assign
    by_cases h1 : CppString.lt k0 k = true
    · rw [if_pos h1]
      simp only [keys, List.map_cons, List.mem_cons] at ih ⊢
      rw [ih]
      tauto
    · rw [if_neg h1]
      by_cases h2 : CppString.lt k k0 = true
      · rw [if_pos h2]
        simp only [keys, List.map_cons, List.mem_cons]
      · rw [if_neg h2]
        have hk : k = k0 :=
          CppString.eq_of_not_lt k k0 (by simpa using h2) (by simpa using h1)
        subst hk
        simp only [keys, List.map_cons, List.mem_cons]
        tauto

theorem length_assign_new (m : Dict) (k : CppString) (v : NdArray) (hk : k ∉ keys m) :
    (assign m k v).length = m.length + 1 := by
  induction m with
  | nil => rfl
  | cons e rest ih =>
    obtain ⟨k0, v0⟩ := e
    simp only [keys, List.map_cons, List.mem_cons, not_or] at hk
    unfold assign
    by_cases h1 : CppString.lt k0 k = true
    · rw [if_pos h1, List.length_cons, ih hk.2, List.length_cons]
    · rw [if_neg h1]
      by_cases h2 : CppString.lt k k0 = true
      · rw [if_pos h2]; rfl
      · exact absurd
          (CppString.eq_of_not_lt k k0 (by simpa using h2) (by simpa using h1)) hk.1

theorem mem_of_find (m : Dict) (k : CppString) (v : NdArray) (h : find m k = some v) :
    (k, v) ∈ m := by
  induction m with
  | nil => simp [find] at h
  | cons e rest ih =>
    obtain ⟨k0, v0⟩ := e
    unfold find at h
    by_cases h0 : k0 = k
    · rw [if_pos h0] at h
      injection h with h
      rw [h0, h]
      exact List.mem_cons_self _ _
    · rw [if_neg h0] at h
      exact List.mem_cons_of_mem _ (ih h)

theorem mem_keys_of_find (m : Dict) (k : CppString) (v : NdArray) (h : find m k = some v) :
    k ∈ keys m :=
  List.mem_map.mpr ⟨(k, v), mem_of_find m k v h, rfl⟩

theorem find_of_mem_keys (m : Dict) (k : CppString) (h : k ∈ keys m) :
    ∃ v, find m k = some v := by
  induction m with
  | nil => simp [keys] at h
  | cons e rest ih =>
    obtain ⟨k0, v0⟩ := e
    simp only [keys, List.map_cons, List.mem_cons] at h
    unfold find
    by_cases h0 : k0 = k
    · exact ⟨v0, by rw [if_pos h0]⟩
    · rw [if_neg h0]
      rcases h with h | h
      · exact absurd h.symm h0
      · exact ih h

end Dict

/-- The loop of `transform` on entries with distinct keys and valid arrays: it ends
normally, every visited entry is found under its new key with the scaled array, and all
other keys are as before the loop. -/
theorem transformLoop_find (rest : List (CppString × NdArray)) (output_dict : Dict)
    (hnodup : (Dict.keys rest).Nodup)
    (hvalid : ∀ e ∈ rest, e.2.WellFormed ∧ 1 ≤ e.2.ndim) :
    ∃ out, transformLoop rest output_dict = .ok out ∧
      (∀ k v, (k, v) ∈ rest → ∃ r, scale_array v Double.c0_3 = .ok r ∧
        Dict.find out (create_new_key_default k) = some r) ∧
      (∀ k', (∀ k ∈ Dict.keys rest, k' ≠ create_new_key_default k) →
        Dict.find out k' = Dict.find output_dict k') := by
  induction rest generalizing output_dict with
  | nil => exact ⟨output_dict, rfl, fun k v h => absurd h (List.not_mem_nil _), fun _ _ => rfl⟩
  | cons e rest ih =>
    obtain ⟨key, arr⟩ := e
    simp only [Dict.keys, List.map_cons, List.nodup_cons] at hnodup
    obtain ⟨hwf, hdim⟩ := hvalid (key, arr) (List.mem_cons_self _ _)
    have hrun := scale_array_eq_map arr Double.c0_3 hwf hdim
    obtain ⟨out, hout, hvis, hoth⟩ :=
      ih (output_dict.assign (create_new_key_default key)
          { shape := arr.shape, strides := cStrides arr.shape,
            data := arr.data.map fun x => Double.mul x Double.c0_3 })
        hnodup.2 (fun e he => hvalid e (List.mem_cons_of_mem _ he))
    refine ⟨out, ?_, ?_, ?_⟩
    · simp only [transformLoop, hrun]
      exact hout
    · intro k v hkv
      rcases List.mem_cons.mp hkv with h | h
      · injection h with hk hv
        subst hk hv
        refine ⟨_, hrun, ?_⟩
        rw [hoth, Dict.find_assign, if_pos rfl]
        intro k2 hk2 heq
        have := create_new_key_default_injective _ _ heq
        subst this
        exact hnodup.1 hk2
      · exact hvis k v h
    · intro k' hk'
      have hhead : create_new_key_default key ≠ k' := fun h =>
        hk' key (by simp [Dict.keys]) h.symm
      rw [hoth k' (fun k hk => hk' k (by simp only [Dict.keys, List.map_cons]; exact List.mem_cons_of_mem _ hk)),
        Dict.find_assign, if_neg hhead]

theorem transformLoop_length (rest : List (CppString × NdArray)) (output_dict : Dict)
    (hnodup : (Dict.keys rest).Nodup)
    (hvalid : ∀ e ∈ rest, e.2.WellFormed ∧ 1 ≤ e.2.ndim)
    (hfresh : ∀ k ∈ Dict.keys rest, create_new_key_default k ∉ Dict.keys output_dict) :
    ∃ out, transformLoop rest output_dict = .ok out ∧
      out.length = output_dict.length + rest.length := by
  induction rest generalizing output_dict with
  | nil => exact ⟨output_dict, rfl, rfl⟩
  | cons e rest ih =>
    obtain ⟨key, arr⟩ := e
    simp only [Dict.keys, List.map_cons, List.nodup_cons] at hnodup
    obtain ⟨hwf, hdim⟩ := hvalid (key, arr) (List.mem_cons_self _ _)
    have hrun := scale_array_eq_map arr Double.c0_3 hwf hdim
    have hnew : create_new_key_default key ∉ Dict.keys output_dict :=
      hfresh key (by simp [Dict.keys])
    obtain ⟨out, hout, hlen⟩ :=
      ih (output_dict.assign (create_new_key_default key)
          { shape := arr.shape, strides := cStrides arr.shape,
            data := arr.data.map fun x => Double.mul x Double.c0_3 })
        hnodup.2 (fun e he => hvalid e (List.mem_cons_of_mem _ he))
        (by
          intro k hk hmem
          rw [Dict.mem_keys_assign] at hmem
          rcases hmem with h | h
          · have := create_new_key_default_injective _ _ h
            subst this
            exact hnodup.1 hk
          · exact hfresh k (by simp only [Dict.keys, List.map_cons]; exact List.mem_cons_of_mem _ hk) h)
    refine ⟨out, ?_, ?_⟩
    · simp only [transformLoop, hrun]
      exact hout
    · rw [hlen, Dict.length_assign_new _ _ _ hnew, List.length_cons]
      omega

theorem transformLoop_zeroDim (rest : List (CppString × NdArray)) (output_dict : Dict)
    (hwf : ∀ e ∈ rest, e.2.WellFormed) (hzero : ∃ e ∈ rest, e.2.ndim = 0) :
    transformLoop rest output_dict = .error .zeroDim := by
  induction rest generalizing output_dict with
  | nil =>
    obtain ⟨e, he, -⟩ := hzero
    exact absurd he (List.not_mem_nil _)
  | cons e rest ih =>
    obtain ⟨key, arr⟩ := e
    by_cases hdim : arr.ndim = 0
    · simp only [transformLoop, scale_array_zeroDim arr _ hdim]
    · have hrun := scale_array_eq_map arr Double.c0_3
        (hwf (key, arr) (List.mem_cons_self _ _)) (by omega)
      simp only [transformLoop, hrun]
      apply ih _ (fun e he => hwf e (List.mem_cons_of_mem _ he))
      obtain ⟨e, he, hz⟩ := hzero
      rcases List.mem_cons.mp he with h | h
      · subst h
        exact absurd hz hdim
      · exact ⟨e, h, hz⟩

/-! ## Facts about `scale_array` on the store -/

theorem Heap.write_frame (h h' : Heap) (p i : Nat) (v : Double)
    (hw : h.write p i v = some h') :
    h'.length = h.length ∧ ∀ q, q ≠ p → h'[q]? = h[q]? := by
  unfold Heap.write at hw
  split at hw
  · exact Option.noConfusion hw
  · split at hw
    · injection hw with hw
      subst hw
      exact ⟨List.length_set _ _ _, fun q hq => List.getElem?_set_ne (Ne.symm hq)⟩
    · exact Option.noConfusion hw

theorem scaleLoopMem_frame (input_ptr output_ptr : Nat) (factor : Double) (n i : Nat)
    (h : Heap) :
    (scaleLoopMem input_ptr output_ptr factor n i h).1.length = h.length ∧
      ∀ q, q ≠ output_ptr →
        (scaleLoopMem input_ptr output_ptr factor n i h).1[q]? = h[q]? := by
  induction n generalizing i h with
  | zero => exact ⟨rfl, fun _ _ => rfl⟩
  | succ n ih =>
    unfold scaleLoopMem
    split
    · exact ⟨rfl, fun _ _ => rfl⟩
    · split
      · exact ⟨rfl, fun _ _ => rfl⟩
      · next h' hw =>
        obtain ⟨hlen, hfr⟩ := Heap.write_frame _ _ _ _ _ hw
        obtain ⟨hlen2, hfr2⟩ := ih (i + 1) h'
        exact ⟨hlen2.trans hlen, fun q hq => (hfr2 q hq).trans (hfr q hq)⟩

theorem scaleLoopMem_error (input_ptr output_ptr : Nat) (factor : Double) (n i : Nat)
    (h : Heap) (e : Error)
    (he : (scaleLoopMem input_ptr output_ptr factor n i h).2 = some e) :
    e = .outOfBounds := by
  induction n generalizing i h with
  | zero => exact Option.noConfusion he
  | succ n ih =>
    unfold scaleLoopMem at he
    split at he
    · injection he with he
      exact he.symm
    · split at he
      · injection he with he
        exact he.symm
      · exact ih _ _ he

/-- The loop on the store follows the loop on the two buffers: with the input array
at `input_ptr` and the output array last in the store, a normal end of one is a normal
end of the other, with the same output buffer. -/
theorem scaleLoopMem_refines (input : NdArray) (factor : Double) (h : Heap)
    (input_ptr : Nat) (hptr : h[input_ptr]? = some input) (shape : List Nat)
    (strides : List Int) (n i : Nat)
    (output out : List Double)
    (hrun : scaleLoop input.data factor n i output = .ok out) :
    scaleLoopMem input_ptr h.length factor n i (h ++ [{ shape := shape, strides := strides, data := output }])
      = (h ++ [{ shape := shape, strides := strides, data := out }], none) := by
  have hlt : input_ptr < h.length := by
    rcases Nat.lt_or_ge input_ptr h.length with hl | hl
    · exact hl
    · rw [List.getElem?_eq_none hl] at hptr
      exact Option.noConfusion hptr
  induction n generalizing i output with
  | zero =>
    simp only [scaleLoop] at hrun
    injection hrun with hrun
    subst hrun
    rfl
  | succ n ih =>
    unfold scaleLoop at hrun
    split at hrun
    · exact Except.noConfusion hrun
    · next x hx =>
      split at hrun
      · next hi =>
        have hread : Heap.read (h ++ [{ shape := shape, strides := strides, data := output }]) input_ptr i
            = some x := by
          unfold Heap.read
          rw [List.getElem?_append_left hlt, hptr]
          exact hx
        have hwrite : Heap.write (h ++ [{ shape := shape, strides := strides, data := output }]) h.length i
              (Double.mul x factor)
            = some (h ++ [{ shape := shape, strides := strides,
                            data := output.set i (Double.mul x factor) }]) := by
          unfold Heap.write
          rw [List.getElem?_append_right (Nat.le_refl _)]
          simp only [Nat.sub_self, List.getElem?_cons_zero, hi, if_true]
          rw [List.set_append_right _ _ (Nat.le_refl _)]
          simp
        unfold scaleLoopMem
        simp only [hread, hwrite]
        exact ih (i + 1) _ hrun
      · exact Except.noConfusion hrun

/-- The function on the store returns what the function on values returns: when
`scale_array` on the input array ends normally with `r`, `scale_array_mem` ends
normally with a new array object equal to `r`, last in the store. -/
theorem scale_array_mem_refines (h : Heap) (arr : Nat) (factor : Double)
    (input : NdArray) (hptr : h[arr]? = some input) (r : NdArray)
    (hrun : scale_array input factor = .ok r) :
    scale_array_mem h arr factor = (h ++ [r], .ok h.length) := by
  unfold scale_array at hrun
  unfold scale_array_mem
  rw [hptr]
  split at hrun
  · exact Except.noConfusion hrun
  · next hdim =>
    simp only [hdim, if_false]
    simp only [NdArray.alloc] at hrun
    split at hrun
    · exact Except.noConfusion hrun
    · next out hloop =>
      injection hrun with hrun
      subst hrun
      simp only [Heap.alloc, NdArray.alloc]
      rw [scaleLoopMem_refines input factor h arr hptr _ _ _ 0 _ out hloop]

/-! ## The claims -/

/-- Scaling of arrays in row-major order: for every well-formed
array `A` in row-major order with at least one dimension and every factor `f`,
`scale_array A f` ends normally with an array of the shape of `A` whose element at every
flat index `i` below the product of the dimensions is `A[i] * f`. -/
theorem scale_array_elem_of_cContiguous (A : NdArray) (f : Double)
    (hwf : A.WellFormed) (hc : A.CContiguous) (hdim : 1 ≤ A.ndim) :
    ∃ r, scale_array A f = .ok r ∧ r.shape = A.shape ∧
      ∀ i, i < A.shape.prod →
        ∃ a, A.elem i = some a ∧ r.elem i = some (Double.mul a f) := by
  obtain ⟨r, hrun, hshape, -, -, helem⟩ := scale_array_cContiguous A f hwf hc hdim
  exact ⟨r, hrun, hshape, helem⟩

set_option maxRecDepth 8000 in
/-- C1 on the transposed view `numpy.arange(6.0).reshape(2, 3).T` with the factor
`2.0`: the view is an array of 6 elements with two dimensions, all reads of the loop
are inside its memory, and `scale_array` ends normally with an array of the same shape;
but the elements of the result, in flat order, are `0, 2, 4, 6, 8, 10` (the memory of the
input in address order, doubled), whereas the elements of the input in flat order,
doubled, are `0, 6, 2, 8, 4, 10`: at flat index 1 the result holds `2.0` and not
`A[1] * 2.0 = 6.0`. -/
theorem scale_array_transposed :
    exampleTransposed.WellFormed ∧ 1 ≤ exampleTransposed.ndim ∧
      (List.range 6).map exampleTransposed.elem
        = [some Double.zero, some Double.three, some Double.one, some Double.four,
            some Double.two, some Double.five] ∧
      (List.range 6).map (fun i => (exampleTransposed.elem i).map fun a => Double.mul a Double.two)
        = [some Double.zero, some Double.six, some Double.two, some Double.eight,
            some Double.four, some Double.ten] ∧
      ∃ r, scale_array exampleTransposed Double.two = .ok r ∧
        r.shape = exampleTransposed.shape ∧
        (List.range 6).map r.elem
          = [some Double.zero, some Double.two, some Double.four, some Double.six,
              some Double.eight, some Double.ten] ∧
        r.elem 1 ≠ (exampleTransposed.elem 1).map fun a => Double.mul a Double.two := by
  refine ⟨by decide, by decide, by decide, by decide,
    NdArray.mk [3, 2] [16, 8]
      [Double.zero, Double.two, Double.four, Double.six, Double.eight, Double.ten],
    by decide, by decide, by decide, by decide⟩

/-- C2, as the spec states its example: `transform({"a": [1.0, 2.0, 3.0]})` is not
`{"a_new": [0.3, 0.6, 0.9]}`; the product `3.0 * 0.3` rounds to the `double` just below
`0.9`. -/
theorem transform_example_ne :
    transform exampleInput
      ≠ .ok [(str "a_new",
          { shape := [3], strides := [8],
            data := [Double.c0_3, Double.c0_6, Double.c0_9] })] := by
  set_option maxRecDepth 8000 in decide

/-- C2, amended: for every collection with ascending keys whose arrays are well-formed
with at least one dimension, `transform` ends normally; the keys of the result are
exactly the input keys followed by `"_new"`, and under `k ++ "_new"` the result holds
`scale_array(input[k], 0.3)`. In particular `transform({"a": [1.0, 2.0, 3.0]})` is
`{"a_new": [0.3, 0.6, 0.8999999999999999]}`. -/
theorem transform_spec :
    (∀ m : Dict, m.Ordered → (∀ e ∈ m, e.2.WellFormed ∧ 1 ≤ e.2.ndim) →
      ∃ out, transform m = .ok out ∧
        (∀ k', k' ∈ out.keys ↔ ∃ k ∈ m.keys, k' = k ++ str "_new") ∧
        (∀ k v, m.find k = some v →
          ∃ r, scale_array v Double.c0_3 = .ok r ∧ out.find (k ++ str "_new") = some r)) ∧
    transform exampleInput
      = .ok [(str "a_new",
          { shape := [3], strides := [8],
            data := [Double.c0_3, Double.c0_6, Double.c0_9_pred] })] := by
  refine ⟨?_, by set_option maxRecDepth 8000 in decide⟩
  intro m hord hvalid
  obtain ⟨out, hrun, hvis, hoth⟩ :=
    transformLoop_find m [] (Dict.keys_nodup_of_ordered m hord) hvalid
  refine ⟨out, hrun, ?_, ?_⟩
  · intro k'
    constructor
    · intro hk'
      by_contra hno
      obtain ⟨v, hv⟩ := Dict.find_of_mem_keys out k' hk'
      rw [hoth k' (fun k hk heq => hno ⟨k, hk, heq⟩)] at hv
      exact Option.noConfusion hv
    · rintro ⟨k, hk, rfl⟩
      obtain ⟨v, hv⟩ := Dict.find_of_mem_keys m k hk
      obtain ⟨r, -, hr⟩ := hvis k v (Dict.mem_of_find m k v hv)
      exact Dict.mem_keys_of_find out _ r hr
  · intro k v hv
    exact hvis k v (Dict.mem_of_find m k v hv)

theorem transform_spec_witness :
    ∃ out, transform exampleInput = .ok out ∧
      (∀ k', k' ∈ out.keys ↔ ∃ k ∈ exampleInput.keys, k' = k ++ str "_new") ∧
      (∀ k v, exampleInput.find k = some v →
        ∃ r, scale_array v Double.c0_3 = .ok r ∧ out.find (k ++ str "_new") = some r) :=
  transform_spec.1 exampleInput (by decide) (by decide)

/-- C3: `scale_array A f` fails with the zero-dimension error exactly when `A` has zero
dimensions, and on every well-formed array with at least one dimension it returns a
result, whatever the elements and the factor. -/
theorem scale_array_error_iff (A : NdArray) (f : Double) :
    (scale_array A f = .error .zeroDim ↔ A.ndim = 0) ∧
      (A.WellFormed → 1 ≤ A.ndim → ∃ r, scale_array A f = .ok r) := by
  refine ⟨⟨?_, scale_array_zeroDim A f⟩, fun hwf hdim => ⟨_, scale_array_eq_map A f hwf hdim⟩⟩
  intro herr
  by_contra hdim
  exact scale_array_ne_zeroDim A f hdim herr

theorem scale_array_error_iff_witness :
    (scale_array exampleScalar Double.c0_3 = .error .zeroDim ↔ exampleScalar.ndim = 0) ∧
      (exampleMixed.WellFormed ∧ 1 ≤ exampleMixed.ndim) ∧
      ∃ r, scale_array exampleMixed Double.nan = .ok r :=
  ⟨(scale_array_error_iff exampleScalar Double.c0_3).1, by decide,
    (scale_array_error_iff exampleMixed Double.nan).2 (by decide) (by decide)⟩

/-- C4: for every collection of well-formed arrays that contains a zero-dimensional
array, `transform` ends with the zero-dimension error and returns no collection,
wherever the zero-dimensional array stands among the entries. -/
theorem transform_zeroDim (m : Dict) (hwf : ∀ e ∈ m, e.2.WellFormed)
    (hzero : ∃ e ∈ m, e.2.ndim = 0) :
    transform m = .error .zeroDim ∧ ∀ out, transform m ≠ .ok out := by
  have h := transformLoop_zeroDim m [] hwf hzero
  refine ⟨h, fun out hout => ?_⟩
  rw [show transform m = transformLoop m [] from rfl, h] at hout
  exact Except.noConfusion hout

theorem transform_zeroDim_witness :
    (∃ e ∈ exampleWithScalar, e.2.ndim = 0) ∧
      transform exampleWithScalar = .error .zeroDim ∧
      ∀ out, transform exampleWithScalar ≠ .ok out :=
  ⟨⟨(str "b", exampleScalar), by decide, by decide⟩,
    transform_zeroDim exampleWithScalar (by decide)
      ⟨(str "b", exampleScalar), by decide, by decide⟩⟩

/-- C5: `create_new_key k s` is `k` followed by `s`, and `create_new_key k` with the
suffix omitted is `k` followed by `"_new"`. -/
theorem create_new_key_spec (k s : CppString) :
    create_new_key k s = k ++ s ∧ create_new_key_default k = k ++ str "_new" :=
  ⟨rfl, rfl⟩

/-- C6, as stated: scaling `[3.0]` by `0.1` and then by `10.0` does not give what
scaling by `0.1 * 10.0` gives (`3.0000000000000004` against `3.0`). -/
theorem scale_array_compose_ne :
    (scale_array exampleThree Double.c0_1).bind (fun r => scale_array r Double.ten)
      ≠ scale_array exampleThree (Double.mul Double.c0_1 Double.ten) := by
  set_option maxRecDepth 8000 in decide

/-- C6, amended: for every well-formed array `A` in row-major order with at least one
dimension and all factors `f1`, `f2`, both `scale_array (scale_array A f1) f2` and
`scale_array A (f1 * f2)` end normally with the shape of `A`; at every flat index `i` the
first holds `(A[i] * f1) * f2` and the second `A[i] * (f1 * f2)`; the two arrays are
equal when these products agree for every element of `A`. -/
theorem scale_array_compose (A : NdArray) (f1 f2 : Double)
    (hwf : A.WellFormed) (hc : A.CContiguous) (hdim : 1 ≤ A.ndim) :
    ∃ r1 r2 r3, scale_array A f1 = .ok r1 ∧ scale_array r1 f2 = .ok r2 ∧
      scale_array A (Double.mul f1 f2) = .ok r3 ∧
      r2.shape = A.shape ∧ r3.shape = A.shape ∧
      (∀ i, i < A.shape.prod → ∃ a, A.elem i = some a ∧
        r2.elem i = some (Double.mul (Double.mul a f1) f2) ∧
        r3.elem i = some (Double.mul a (Double.mul f1 f2))) ∧
      ((∀ a ∈ A.data, Double.mul (Double.mul a f1) f2 = Double.mul a (Double.mul f1 f2)) →
        r2 = r3) := by
  have h1 := scale_array_eq_map A f1 hwf hdim
  have hwf1 : NdArray.WellFormed
      { shape := A.shape, strides := cStrides A.shape,
        data := A.data.map fun x => Double.mul x f1 } := by
    simpa [NdArray.WellFormed] using hwf
  have h2 := scale_array_eq_map _ f2 hwf1 hdim
  have h3 := scale_array_eq_map A (Double.mul f1 f2) hwf hdim
  refine ⟨_, _, _, h1, h2, h3, rfl, rfl, ?_, ?_⟩
  · intro i hi
    have hlt : i < A.data.length := by rw [hwf.1]; exact hi
    refine ⟨A.data[i], ?_, ?_, ?_⟩
    · rw [elem_of_cContiguous A hc i hi, List.getElem?_eq_getElem hlt]
    · rw [elem_of_cContiguous _ (cContiguous_cStrides _ _) i hi]
      simp [List.getElem?_map, List.getElem?_eq_getElem hlt]
    · rw [elem_of_cContiguous _ (cContiguous_cStrides _ _) i hi]
      simp [List.getElem?_map, List.getElem?_eq_getElem hlt]
  · intro hassoc
    simp only [List.map_map, NdArray.mk.injEq, true_and]
    apply List.map_congr_left
    intro a ha
    exact hassoc a ha

set_option maxRecDepth 8000 in
theorem scale_array_compose_witness :
    (exampleMixed.WellFormed ∧ exampleMixed.CContiguous ∧ 1 ≤ exampleMixed.ndim) ∧
    (∀ a ∈ exampleMixed.data,
      Double.mul (Double.mul a Double.two) Double.c0_3
        = Double.mul a (Double.mul Double.two Double.c0_3)) ∧
    ∃ r1 r2 r3, scale_array exampleMixed Double.two = .ok r1 ∧
      scale_array r1 Double.c0_3 = .ok r2 ∧
      scale_array exampleMixed (Double.mul Double.two Double.c0_3) = .ok r3 ∧
      r2.shape = exampleMixed.shape ∧ r3.shape = exampleMixed.shape ∧
      (∀ i, i < exampleMixed.shape.prod → ∃ a, exampleMixed.elem i = some a ∧
        r2.elem i = some (Double.mul (Double.mul a Double.two) Double.c0_3) ∧
        r3.elem i = some (Double.mul a (Double.mul Double.two Double.c0_3))) ∧
      r2 = r3 := by
  obtain ⟨r1, r2, r3, h1, h2, h3, hs2, hs3, helem, heq⟩ :=
    scale_array_compose exampleMixed Double.two Double.c0_3 (by decide) (by decide) (by decide)
  exact ⟨by decide, by decide, r1, r2, r3, h1, h2, h3, hs2, hs3, helem, heq (by decide)⟩

/-- The factor `1.0` on arrays in row-major order: for every well-formed
array `A` in row-major order with at least one dimension, `scale_array A 1.0` ends
normally with an array of the shape of `A` that has the element of `A` at every flat
index. -/
theorem scale_array_one_of_cContiguous (A : NdArray)
    (hwf : A.WellFormed) (hc : A.CContiguous) (hdim : 1 ≤ A.ndim) :
    ∃ r, scale_array A Double.one = .ok r ∧ r.shape = A.shape ∧
      ∀ i, i < A.shape.prod → r.elem i = A.elem i := by
  obtain ⟨r, hrun, hshape, -, -, helem⟩ := scale_array_cContiguous A Double.one hwf hc hdim
  refine ⟨r, hrun, hshape, ?_⟩
  intro i hi
  obtain ⟨a, ha, hr⟩ := helem i hi
  rw [ha, hr, Double.mul_one]

set_option maxRecDepth 8000 in
/-- C7 on the transposed view `numpy.arange(6.0).reshape(2, 3).T`: `scale_array` with
the factor `1.0` ends normally with an array of the same shape whose elements, in flat
order, are `0, 1, 2, 3, 4, 5`, the memory of the input in address order, whereas the
elements of the input in flat order are `0, 3, 1, 4, 2, 5`: the result differs from the
input at the flat indices 1 to 4. -/
theorem scale_array_one_transposed :
    exampleTransposed.WellFormed ∧ 1 ≤ exampleTransposed.ndim ∧
      (List.range 6).map exampleTransposed.elem
        = [some Double.zero, some Double.three, some Double.one, some Double.four,
            some Double.two, some Double.five] ∧
      ∃ r, scale_array exampleTransposed Double.one = .ok r ∧
        r.shape = exampleTransposed.shape ∧
        (List.range 6).map r.elem
          = [some Double.zero, some Double.one, some Double.two, some Double.three,
              some Double.four, some Double.five] ∧
        r.elem 1 ≠ exampleTransposed.elem 1 ∧ r.elem 2 ≠ exampleTransposed.elem 2 ∧
        r.elem 3 ≠ exampleTransposed.elem 3 ∧ r.elem 4 ≠ exampleTransposed.elem 4 := by
  refine ⟨by decide, by decide, by decide,
    NdArray.mk [3, 2] [16, 8]
      [Double.zero, Double.one, Double.two, Double.three, Double.four, Double.five],
    by decide, by decide, by decide, by decide, by decide, by decide, by decide⟩

/-- C8: `transform` on the empty collection ends normally with the empty collection. -/
theorem transform_empty : transform [] = .ok [] :=
  rfl

/-- C9: `scale_array` on the store changes no array object that existed before the
call: whether it ends normally or not, every earlier object, the input among them, has
its shape and all its elements as before; when it ends normally the result is a new
object, distinct from the input, and the store has grown by exactly that object; when it
fails on a zero-dimensional input the store is unchanged. -/
theorem scale_array_mem_frame (h : Heap) (arr : Nat) (factor : Double)
    (harr : arr < h.length) :
    (scale_array_mem h arr factor).1[arr]? = h[arr]? ∧
      (∀ q, q < h.length → (scale_array_mem h arr factor).1[q]? = h[q]?) ∧
      (∀ r, (scale_array_mem h arr factor).2 = .ok r →
        r = h.length ∧ r ≠ arr ∧ (scale_array_mem h arr factor).1.length = h.length + 1) ∧
      ((scale_array_mem h arr factor).2 = .error .zeroDim →
        (scale_array_mem h arr factor).1 = h) := by
  have key : (∀ q, q < h.length → (scale_array_mem h arr factor).1[q]? = h[q]?) ∧
      (∀ r, (scale_array_mem h arr factor).2 = .ok r →
        r = h.length ∧ (scale_array_mem h arr factor).1.length = h.length + 1) ∧
      ((scale_array_mem h arr factor).2 = .error .zeroDim →
        (scale_array_mem h arr factor).1 = h) := by
    unfold scale_array_mem
    split
    · exact ⟨fun _ _ => rfl, fun r hr => Except.noConfusion hr, fun _ => rfl⟩
    · next buf hbuf =>
      split
      · exact ⟨fun _ _ => rfl, fun r hr => Except.noConfusion hr, fun _ => rfl⟩
      · next hdim =>
        simp only [Heap.alloc]
        obtain ⟨hlen, hfr⟩ := scaleLoopMem_frame arr h.length factor (totalSize buf.shape) 0
          (h ++ [NdArray.alloc buf.shape])
        have hpre : ∀ q, q < h.length →
            (scaleLoopMem arr h.length factor (totalSize buf.shape) 0
              (h ++ [NdArray.alloc buf.shape])).1[q]? = h[q]? := by
          intro q hq
          rw [hfr q (by omega), List.getElem?_append_left hq]
        split
        · next h2 e heq =>
          rw [heq] at hpre hlen
          refine ⟨hpre, fun r hr => Except.noConfusion hr, ?_⟩
          intro he
          injection he with he
          have hoob := scaleLoopMem_error arr h.length factor (totalSize buf.shape) 0
            (h ++ [NdArray.alloc buf.shape]) e (by rw [heq])
          rw [hoob] at he
          exact Error.noConfusion he
        · next h2 heq =>
          rw [heq] at hpre hlen
          refine ⟨hpre, ?_, fun he => Except.noConfusion he⟩
          intro r hr
          injection hr with hr
          subst hr
          exact ⟨rfl, by simpa using hlen⟩
  obtain ⟨hpre, hok, herr⟩ := key
  refine ⟨hpre arr harr, hpre, ?_, herr⟩
  intro r hr
  obtain ⟨h1, h2⟩ := hok r hr
  exact ⟨h1, by omega, h2⟩

theorem scale_array_mem_frame_witness :
    0 < exampleHeap.length ∧
      (scale_array_mem exampleHeap 0 Double.c0_3).1[0]? = exampleHeap[0]? ∧
      (∀ q, q < exampleHeap.length →
        (scale_array_mem exampleHeap 0 Double.c0_3).1[q]? = exampleHeap[q]?) ∧
      (∀ r, (scale_array_mem exampleHeap 0 Double.c0_3).2 = .ok r →
        r = exampleHeap.length ∧ r ≠ 0 ∧
          (scale_array_mem exampleHeap 0 Double.c0_3).1.length = exampleHeap.length + 1) ∧
      ((scale_array_mem exampleHeap 0 Double.c0_3).2 = .error .zeroDim →
        (scale_array_mem exampleHeap 0 Double.c0_3).1 = exampleHeap) :=
  ⟨by decide, scale_array_mem_frame exampleHeap 0 Double.c0_3 (by decide)⟩

/-- C10: appending the default suffix is injective, and for every collection with
ascending keys whose arrays are well-formed with at least one dimension `transform`
ends normally with exactly as many entries as the input has. -/
theorem transform_length :
    (∀ k1 k2 : CppString,
      create_new_key_default k1 = create_new_key_default k2 → k1 = k2) ∧
    ∀ m : Dict, m.Ordered → (∀ e ∈ m, e.2.WellFormed ∧ 1 ≤ e.2.ndim) →
      ∃ out, transform m = .ok out ∧ out.length = m.length := by
  refine ⟨create_new_key_default_injective, ?_⟩
  intro m hord hvalid
  obtain ⟨out, hrun, hlen⟩ :=
    transformLoop_length m [] (Dict.keys_nodup_of_ordered m hord) hvalid
      (fun _ _ h => absurd h (List.not_mem_nil _))
  exact ⟨out, hrun, by simpa using hlen⟩

theorem transform_length_witness :
    (exampleTwo.Ordered ∧ ∀ e ∈ exampleTwo, e.2.WellFormed ∧ 1 ≤ e.2.ndim) ∧
      ∃ out, transform exampleTwo = .ok out ∧ out.length = exampleTwo.length :=
  ⟨by decide, transform_length.2 exampleTwo (by decide) (by decide)⟩

/-! ## Facts about the recorded accesses -/

theorem scaleLoopTrace_snd (input : List Double) (factor : Double) (n i : Nat)
    (output : List Double) :
    (scaleLoopTrace input factor n i output).2 = scaleLoop input factor n i output := by
  induction n generalizing i output with
  | zero => rfl
  | succ n ih =>
    unfold scaleLoopTrace scaleLoop
    split
    · rfl
    · split
      · exact ih _ _
      · rfl

/-- The function with the accesses recorded returns what `scale_array` returns. -/
theorem scale_array_trace_snd (arr : NdArray) (factor : Double) :
    (scale_array_trace arr factor).2 = scale_array arr factor := by
  unfold scale_array_trace scale_array
  split
  · rfl
  · have h := scaleLoopTrace_snd arr.data factor (totalSize arr.shape) 0
      (NdArray.alloc arr.shape).data
    simp only
    split
    · next t e heq =>
      rw [heq] at h
      simp only at h
      rw [← h]
    · next t output heq =>
      rw [heq] at h
      simp only at h
      rw [← h]

theorem scaleLoopTrace_fst (input : List Double) (factor : Double) (n i : Nat)
    (output : List Double) (hin : i + n ≤ input.length) (hout : i + n ≤ output.length) :
    reads (scaleLoopTrace input factor n i output).1 = List.range' i n ∧
      writes (scaleLoopTrace input factor n i output).1 = List.range' i n := by
  induction n generalizing i output with
  | zero => exact ⟨rfl, rfl⟩
  | succ n ih =>
    have hi : i < input.length := by omega
    have ho : i < output.length := by omega
    obtain ⟨hr, hw⟩ := ih (i + 1) (output.set i (Double.mul input[i] factor))
      (by omega) (by rw [List.length_set]; omega)
    simp only [scaleLoopTrace, List.getElem?_eq_getElem hi, ho, if_true, reads, writes,
      List.range'_succ, hr, hw, and_self]

theorem scale_array_trace_fst (arr : NdArray) (factor : Double) (hdim : arr.ndim ≠ 0) :
    (scale_array_trace arr factor).1
      = (scaleLoopTrace arr.data factor (totalSize arr.shape) 0
          (NdArray.alloc arr.shape).data).1 := by
  unfold scale_array_trace
  rw [if_neg hdim]
  simp only
  split
  · next t e heq => rw [heq]
  · next t output heq => rw [heq]

theorem alloc_length (shape : List Nat) : (NdArray.alloc shape).data.length = shape.prod := by
  simp [NdArray.alloc]

theorem scale_array_ok_of_length (A : NdArray) (f : Double)
    (hlen : A.data.length = A.shape.prod) (hdim : A.ndim ≠ 0) :
    ∃ r, scale_array A f = .ok r := by
  have htot : totalSize A.shape ≤ A.shape.prod := by
    rw [totalSize_eq]
    exact Nat.mod_le _ _
  obtain ⟨out, hrun, -⟩ := scaleLoop_ok A.data f (totalSize A.shape) 0
    (NdArray.alloc A.shape).data (by omega) (by rw [alloc_length]; omega)
  refine ⟨{ shape := A.shape, strides := cStrides A.shape, data := out }, ?_⟩
  have hrun2 : scaleLoop A.data f (totalSize A.shape) 0
      (List.replicate A.shape.prod Double.zero) = .ok out := hrun
  unfold scale_array
  rw [if_neg hdim]
  simp only [NdArray.alloc, hrun2]

/-- C11: on an array with at least one dimension whose buffer holds exactly
`d1 * ... * dk` elements, the scaling loop of `scale_array` reads the input and writes
the result at the indices `0, 1, ..., total_size - 1`, one read and one write each, in
this order; every one of them is below `d1 * ... * dk`, which is the length of the input
buffer and of the result buffer, so no access is out of range and the call ends
normally; no index is accessed twice, and, the element count fitting a `size_t`, the
indices are exactly the flat indices `0, ..., d1 * ... * dk - 1`, each read once and
written once. -/
theorem scale_array_access (A : NdArray) (f : Double)
    (hlen : A.data.length = A.shape.prod) (hdim : 1 ≤ A.ndim) :
    (NdArray.alloc A.shape).data.length = A.shape.prod ∧
      reads (scale_array_trace A f).1 = List.range (totalSize A.shape) ∧
      writes (scale_array_trace A f).1 = List.range (totalSize A.shape) ∧
      (∀ i ∈ reads (scale_array_trace A f).1, i < A.shape.prod) ∧
      (∀ i ∈ writes (scale_array_trace A f).1, i < A.shape.prod) ∧
      (∃ r, (scale_array_trace A f).2 = .ok r) ∧
      (reads (scale_array_trace A f).1).Nodup ∧ (writes (scale_array_trace A f).1).Nodup ∧
      (A.shape.prod < 2 ^ 64 →
        reads (scale_array_trace A f).1 = List.range A.shape.prod ∧
        writes (scale_array_trace A f).1 = List.range A.shape.prod ∧
        ∀ i, i < A.shape.prod →
          (reads (scale_array_trace A f).1).count i = 1 ∧
            (writes (scale_array_trace A f).1).count i = 1) := by
  have hnd : A.ndim ≠ 0 := by omega
  have htot : totalSize A.shape ≤ A.shape.prod := by
    rw [totalSize_eq]
    exact Nat.mod_le _ _
  obtain ⟨hr, hw⟩ := scaleLoopTrace_fst A.data f (totalSize A.shape) 0
    (NdArray.alloc A.shape).data (by omega) (by rw [alloc_length]; omega)
  rw [← List.range_eq_range'] at hr hw
  rw [scale_array_trace_fst A f hnd, hr, hw, scale_array_trace_snd]
  refine ⟨alloc_length _, rfl, rfl, ?_, ?_, scale_array_ok_of_length A f hlen hnd,
    List.nodup_range _, List.nodup_range _, ?_⟩
  · intro i hi
    exact Nat.lt_of_lt_of_le (List.mem_range.mp hi) htot
  · intro i hi
    exact Nat.lt_of_lt_of_le (List.mem_range.mp hi) htot
  · intro hbound
    rw [totalSize_of_lt _ hbound]
    refine ⟨rfl, rfl, ?_⟩
    intro i hi
    have hc := List.count_eq_one_of_mem (List.nodup_range A.shape.prod) (List.mem_range.mpr hi)
    exact ⟨hc, hc⟩

theorem scale_array_access_witness :
    (exampleMixed.data.length = exampleMixed.shape.prod ∧ 1 ≤ exampleMixed.ndim ∧
        exampleMixed.shape.prod < 2 ^ 64) ∧
      reads (scale_array_trace exampleMixed Double.c0_3).1 = [0, 1, 2, 3] ∧
      writes (scale_array_trace exampleMixed Double.c0_3).1 = [0, 1, 2, 3] ∧
      ∀ i, i < exampleMixed.shape.prod →
        (reads (scale_array_trace exampleMixed Double.c0_3).1).count i = 1 ∧
          (writes (scale_array_trace exampleMixed Double.c0_3).1).count i = 1 :=
  ⟨by decide,
    ((scale_array_access exampleMixed Double.c0_3 (by decide) (by decide)).2.2.2.2.2.2.2.2
      (by decide)).1,
    ((scale_array_access exampleMixed Double.c0_3 (by decide) (by decide)).2.2.2.2.2.2.2.2
      (by decide)).2.1,
    ((scale_array_access exampleMixed Double.c0_3 (by decide) (by decide)).2.2.2.2.2.2.2.2
      (by decide)).2.2⟩

/-- C12: for every array with at least one dimension whose shape contains a dimension
of size 0, the computed total size is 0, the scaling loop makes no access, and
`scale_array` ends normally with an empty array of the shape of the input. -/
theorem scale_array_zero_size (A : NdArray) (f : Double)
    (hdim : 1 ≤ A.ndim) (hzero : 0 ∈ A.shape) :
    totalSize A.shape = 0 ∧ (scale_array_trace A f).1 = [] ∧
      scale_array A f = .ok { shape := A.shape, strides := cStrides A.shape, data := [] } := by
  have hprod : A.shape.prod = 0 := List.prod_eq_zero hzero
  have htot : totalSize A.shape = 0 := by rw [totalSize_eq, hprod, Nat.zero_mod]
  have hnd : A.ndim ≠ 0 := by omega
  refine ⟨htot, ?_, ?_⟩
  · rw [scale_array_trace_fst A f hnd, htot]
    rfl
  · unfold scale_array
    rw [if_neg hnd]
    simp only [htot, NdArray.alloc, hprod, List.replicate_zero, scaleLoop]

theorem scale_array_zero_size_witness :
    (1 ≤ exampleEmpty.ndim ∧ 0 ∈ exampleEmpty.shape) ∧
      totalSize exampleEmpty.shape = 0 ∧
      (scale_array_trace exampleEmpty Double.c0_3).1 = [] ∧
      scale_array exampleEmpty Double.c0_3
        = .ok { shape := exampleEmpty.shape, strides := cStrides exampleEmpty.shape,
                data := [] } :=
  ⟨by decide, scale_array_zero_size exampleEmpty Double.c0_3 (by decide) (by decide)⟩

set_option maxRecDepth 8000 in
/-- C13: appending the default suffix does not keep the order of keys: `"a" < "a!"` but
`"a!_new" < "a_new"`; `transform` on the collection with the keys `"a"`, `"a!"` ends
with the keys `"a!_new"`, `"a_new"` in ascending order, while the input entries, in
the order they were visited, rename to `"a_new"`, `"a!_new"`. -/
theorem create_new_key_order :
    CppString.lt (str "a") (str "a!") = true ∧
      CppString.lt (create_new_key_default (str "a!")) (create_new_key_default (str "a"))
        = true ∧
      exampleTwo.Ordered ∧
      (transform exampleTwo).map Dict.keys = .ok [str "a!_new", str "a_new"] ∧
      exampleTwo.keys.map create_new_key_default = [str "a_new", str "a!_new"] ∧
      (∃ out, transform exampleTwo = .ok out ∧ out.Ordered ∧
        out.keys ≠ exampleTwo.keys.map create_new_key_default) := by
  refine ⟨by decide, by decide, by decide, by decide, by decide, ?_⟩
  refine ⟨[(str "a!_new",
        NdArray.mk exampleMixed.shape (cStrides exampleMixed.shape)
          (exampleMixed.data.map fun x => Double.mul x Double.c0_3)),
      (str "a_new",
        NdArray.mk exampleThree.shape (cStrides exampleThree.shape)
          (exampleThree.data.map fun x => Double.mul x Double.c0_3))],
    ?_, ?_, ?_⟩ <;> decide

end pybase
